import Mathlib

/-!
Verification of quickshear.py, a defacing tool for 3D anatomical brain
images.  The program is embedded shallowly: numpy arrays become shapes
plus total indexing functions, float64 arithmetic is modelled by exact
rationals extended with infinities and NaN, and Python exceptions become
Except results.
-/

namespace Quickshear

/-- A 2D integer point (first coordinate, second coordinate), as a row of
the n x 2 matrix built from np.nonzero output. -/
abbrev Point := ℤ × ℤ

/-- np.cross(a - o, b - o) for 2D points: the z component of the cross
product, positive for a counter-clockwise turn o -> a -> b. -/
def cross (o a b : Point) : ℤ :=
  (a.1 - o.1) * (b.2 - o.2) - (a.2 - o.2) * (b.1 - o.1)

/-- Strict lexicographic order on points; np.nonzero emits the true cells
of a 2D array in exactly this (row-major) order. -/
def lexLt (a b : Point) : Prop :=
  a.1 < b.1 ∨ (a.1 = b.1 ∧ a.2 < b.2)

instance (a b : Point) : Decidable (lexLt a b) := by
  unfold lexLt; infer_instance

/-- Reflexive closure of the lexicographic order. -/
def lexLe (a b : Point) : Prop := lexLt a b ∨ a = b

instance (a b : Point) : Decidable (lexLe a b) := by
  unfold lexLe; infer_instance

/-- IEEE-754 double values as produced by numpy arithmetic: finite values
(modelled as exact rationals), the two infinities, and NaN. -/
inductive XRat where
  | fin (q : ℚ)
  | inf
  | ninf
  | nan
deriving DecidableEq

/-- IEEE negation. -/
def XRat.neg : XRat → XRat
  | .fin q => .fin (-q)
  | .inf => .ninf
  | .ninf => .inf
  | .nan => .nan

/-- IEEE addition: inf + (-inf) and anything involving NaN give NaN. -/
def XRat.add : XRat → XRat → XRat
  | .fin a, .fin b => .fin (a + b)
  | .fin _, .inf => .inf
  | .fin _, .ninf => .ninf
  | .inf, .fin _ => .inf
  | .ninf, .fin _ => .ninf
  | .inf, .inf => .inf
  | .ninf, .ninf => .ninf
  | _, _ => .nan

/-- IEEE subtraction. -/
def XRat.sub (a b : XRat) : XRat := a.add b.neg

/-- IEEE multiplication: 0 * inf gives NaN. -/
def XRat.mul : XRat → XRat → XRat
  | .fin a, .fin b => .fin (a * b)
  | .fin a, .inf => if 0 < a then .inf else if a < 0 then .ninf else .nan
  | .fin a, .ninf => if 0 < a then .ninf else if a < 0 then .inf else .nan
  | .inf, .fin b => if 0 < b then .inf else if b < 0 then .ninf else .nan
  | .ninf, .fin b => if 0 < b then .ninf else if b < 0 then .inf else .nan
  | .inf, .inf => .inf
  | .inf, .ninf => .ninf
  | .ninf, .inf => .ninf
  | .ninf, .ninf => .inf
  | _, _ => .nan

/-- numpy float division: a finite value divided by zero yields a signed
infinity (or NaN for 0/0) together with a RuntimeWarning, not an error.
The non-finite dividend cases are never reached by the program. -/
def XRat.div : XRat → XRat → XRat
  | .fin a, .fin b =>
      if b ≠ 0 then .fin (a / b)
      else if 0 < a then .inf else if a < 0 then .ninf else .nan
  | _, _ => .nan

/-- The comparison x > 0 on floats; NaN compares false. -/
def XRat.gt0 : XRat → Bool
  | .fin q => decide (0 < q)
  | .inf => true
  | _ => false

/-- Truncation toward zero, the semantics of float -> int casts in
Python and numpy. -/
def ratTrunc (q : ℚ) : ℤ := if 0 ≤ q then ⌊q⌋ else -⌊-q⌋

/-- float64 -> int64 cast of ys.astype(int): truncation toward zero for
finite values; non-finite values produce INT64_MIN (the platform
behaviour of numpy on x86). -/
def XRat.toInt : XRat → ℤ
  | .fin q => ratTrunc q
  | _ => -(2 ^ 63)

/-- A 3D numpy array: a shape and a total indexing function (values at
out-of-shape indices are irrelevant junk). -/
structure Arr3 where
  n1 : ℕ
  n2 : ℕ
  n3 : ℕ
  data : ℕ → ℕ → ℕ → ℤ

/-- A 2D boolean numpy array. -/
structure Arr2B where
  m1 : ℕ
  m2 : ℕ
  d : ℕ → ℕ → Bool

/-- mask.any(axis=0) (line 23): the sagittal silhouette of the mask,
true where any voxel along the first axis is nonzero. -/
def silhouette (m : Arr3) : Arr2B :=
  ⟨m.n2, m.n3, fun j k => decide (∃ i, i < m.n1 ∧ m.data i j k ≠ 0)⟩

/-- 0/1 indicator of a boolean pixel, for the integer arithmetic of the
edge filter. -/
def bInd (b : Bool) : ℤ := if b then 1 else 0

/-- Edge detection on a 2D silhouette (lines 26-27):
4*brain - roll(brain,1,0) - roll(brain,-1,0) - roll(brain,1,1)
- roll(brain,-1,1) != 0.  np.roll wraps around, so the neighbour lookup
is toroidal. -/
def edgeOf (b : Arr2B) : Arr2B :=
  ⟨b.m1, b.m2, fun i j =>
    decide (4 * bInd (b.d i j)
      - bInd (b.d ((i + b.m1 - 1) % b.m1) j)
      - bInd (b.d ((i + 1) % b.m1) j)
      - bInd (b.d i ((j + b.m2 - 1) % b.m2))
      - bInd (b.d i ((j + 1) % b.m2)) ≠ 0)⟩

/-- edge_mask (lines 8-28): silhouette then edge detection. -/
def edge_mask (m : Arr3) : Arr2B := edgeOf (silhouette m)

/-- np.vstack(np.nonzero(brain)).T (line 49): the list of coordinates of
true pixels in row-major order, which is lexicographically ascending.
The hull builder receives an unordered set of pixels (a 2D array) and
imposes this ordering itself. -/
def extractPts (b : Arr2B) : List Point :=
  ((List.range b.m1).map (fun i =>
    ((List.range b.m2).filter (fun j => b.d i j)).map
      (fun (j : ℕ) => (((i : ℤ), (j : ℤ)) : Point)))).flatten

/-- The inner pop loop of the monotone chain sweep (lines 56-57); the
working hull is kept in reversed order, most recently appended point
first, so lower[-1] is the head:
while len(lower) >= 2 and cross(lower[-2], lower[-1], p) <= 0: pop. -/
def popWhile (p : Point) : List Point → List Point
  | b :: a :: rest => if cross a b p ≤ 0 then popWhile p (a :: rest) else b :: a :: rest
  | l => l

/-- One sweep step (lines 55-58): pop, then append p. -/
def sweepStep (acc : List Point) (p : Point) : List Point := p :: popWhile p acc

/-- The monotone chain sweep over a point list, returning the hull in
left-to-right order. -/
def chainOf (pts : List Point) : List Point := (pts.foldl sweepStep []).reverse

/-- convex_hull (lines 31-60): lower convex hull of the nonzero pixels of
a 2D array, via Andrew's monotone chain. -/
def convex_hull (b : Arr2B) : List Point := chainOf (extractPts b)

/-- Reverse the data of a 3D array along one axis
(nb.orientations.flip_axis; only axes 0, 1, 2 are ever passed). -/
def flip_axis (d : Arr3) (ax : ℕ) : Arr3 :=
  { d with data := fun i j k =>
      if ax = 0 then d.data (d.n1 - 1 - i) j k
      else if ax = 1 then d.data i (d.n2 - 1 - j) k
      else d.data i j (d.n3 - 1 - k) }

/-- flip_axes (lines 63-78): flip the data along each axis whose flag is
set, in ascending axis order (the order of np.nonzero(flips)[0]). -/
def flip_axes (d : Arr3) (fl : Bool × Bool × Bool) : Arr3 :=
  let d0 := if fl.1 then flip_axis d 0 else d
  let d1 := if fl.2.1 then flip_axis d0 1 else d0
  if fl.2.2 then flip_axis d1 2 else d1

/-- Index reversal along an axis of length n: the pointwise action of a
single flip on one coordinate. -/
def flipIdx (f : Bool) (n i : ℕ) : ℕ := if f then n - 1 - i else i

/-- A nibabel spatial image: voxel array, affine, header, and the axis
direction codes that nb.orientations.aff2axcodes derives from the
affine.  Affine and header are opaque to the core (it only copies them),
so they are modelled as opaque tokens; the axis codes are modelled as
loader-provided data, since the affine decoder is an external
collaborator. -/
structure Volume where
  arr : Arr3
  affine : ℕ
  header : ℕ
  ax1 : Char
  ax2 : Char
  ax3 : Char

/-- orient_xPS (lines 81-101): compare the image's axis codes against
(hemi, P, S) and flip every mismatching axis; return the reoriented data
and the flip flags. -/
def orient_xPS (img : Volume) (hemi : Char) : Arr3 × (Bool × Bool × Bool) :=
  let fl := (decide (img.ax1 ≠ hemi), decide (img.ax2 ≠ 'P'), decide (img.ax3 ≠ 'S'))
  (flip_axes img.arr fl, fl)

/-- Slope of the leading hull segment (lines 126-127):
slope = ydiffs[0] / xdiffs[0], a float division of the coordinate
differences of the first two hull points. -/
def slopeOf (p0 p1 : Point) : XRat :=
  XRat.div (.fin ((p1.2 - p0.2 : ℤ) : ℚ)) (.fin ((p1.1 - p0.1 : ℤ) : ℚ))

/-- Intercept of the cut line (line 129):
yint = low[1][0] - low[0][0]*slope - buff.  low[1][0] is the second
coordinate of hull point 0 and low[0][0] its first coordinate. -/
def yintOf (p0 p1 : Point) (buff : ℚ) : XRat :=
  XRat.sub (XRat.sub (.fin ((p0.2 : ℤ) : ℚ))
    (XRat.mul (.fin ((p0.1 : ℤ) : ℚ)) (slopeOf p0 p1))) (.fin buff)

/-- Entry k of ys = np.arange(0, mask.shape[2]) * slope + yint
(line 130). -/
def ysAt (slope yint : XRat) (k : ℕ) : XRat :=
  XRat.add (XRat.mul (.fin ((k : ℕ) : ℚ)) slope) yint

/-- np.nonzero(ys > 0)[0] (line 133): the positions whose line value is
positive, in increasing order. -/
def posIdx (slope yint : XRat) (n : ℕ) : List ℕ :=
  (List.range n).filter (fun k => (ysAt slope yint k).gt0)

/-- ys.astype(int) (line 133): every line value truncated to int64. -/
def truncYs (slope yint : XRat) (n : ℕ) : List ℤ :=
  (List.range n).map (fun k => (ysAt slope yint k).toInt)

/-- zip(np.nonzero(ys > 0)[0], ys.astype(int)) (line 133): the j-th
positive position is paired with the j-th entry of the whole truncated
ys array, not with its own line value. -/
def zipAssign (slope yint : XRat) (n : ℕ) : List (ℕ × ℤ) :=
  (posIdx slope yint n).zip (truncYs slope yint n)

/-- Effective stop of the Python slice [:y] on an axis of length n:
a negative y counts from the end, and the result is clamped to
[0, n]. -/
def sliceStop (y : ℤ) (n : ℕ) : ℕ :=
  if 0 ≤ y then min y.toNat n else ((n : ℤ) + y).toNat

/-- One loop iteration (line 134): defaced_mask[:, x, :y] = 0. -/
def maskUpd (n3 : ℕ) (m : ℕ → ℕ → ℕ → Bool) (xy : ℕ × ℤ) : ℕ → ℕ → ℕ → Bool :=
  fun s a i => if a = xy.1 ∧ i < sliceStop xy.2 n3 then false else m s a i

/-- The keep-mask built by the loop of lines 131-134, starting from
np.ones and zeroing one slab per zipped pair. -/
def buildKeep (zs : List (ℕ × ℤ)) (n3 : ℕ) : ℕ → ℕ → ℕ → Bool :=
  zs.foldl (maskUpd n3) (fun _ _ _ => true)

/-- Python exceptions escaping quickshear; each is rendered by the
interpreter as a fatal traceback with nonzero exit status, and they are
distinguishable by their type and source line. -/
inductive PyErr where
  | valueError
  | hullIndexError
  | axisIndexError
deriving DecidableEq

/-- The convex hull of the mask silhouette's edge as computed inside
quickshear (lines 121-125). -/
def hullOf (mask_img : Volume) : List Point :=
  convex_hull (edge_mask (orient_xPS mask_img 'R').1)

/-- Lines 136-137 without the metadata: the elementwise product
defaced_mask * anat (True acting as 1), flipped back with the
anatomical flip flags. -/
def defacedVol (anat : Arr3) (fl : Bool × Bool × Bool) (keep : ℕ → ℕ → ℕ → Bool) : Arr3 :=
  flip_axes
    ⟨anat.n1, anat.n2, anat.n3, fun s a i => if keep s a i then anat.data s a i else 0⟩ fl

/-- quickshear (lines 104-137).  Control flow of the original:
a 0-point hull fails unpacking np.diff (ValueError, line 126); a 1-point
hull fails indexing ydiffs[0] (IndexError, line 127); a positive
position x >= mask.shape[1] fails the slab assignment (IndexError,
line 134).  A zero-run leading segment is NOT an error: the float
division yields inf or NaN and execution continues.  The defaced data is
keep * anat, flipped back, and wrapped with the anatomical image's
affine and a copy of its header. -/
def quickshear (anat_img mask_img : Volume) (buff : ℚ) : Except PyErr Volume :=
  let ao := orient_xPS anat_img 'R'
  let mo := orient_xPS mask_img 'R'
  let anat := ao.1
  let mask := mo.1
  match hullOf mask_img with
  | [] => .error .valueError
  | [_] => .error .hullIndexError
  | p0 :: p1 :: _ =>
    let slope := slopeOf p0 p1
    let yint := yintOf p0 p1 buff
    if ∀ x ∈ posIdx slope yint mask.n3, x < mask.n2 then
      let keep := buildKeep (zipAssign slope yint mask.n3) mask.n3
      .ok { arr := defacedVol anat ao.2 keep,
            affine := anat_img.affine,
            header := anat_img.header,
            ax1 := anat_img.ax1, ax2 := anat_img.ax2, ax3 := anat_img.ax3 }
    else .error .axisIndexError

/-- deface (lines 140-160): load both images, compare voxel-grid shapes
before any geometric computation, and only then run quickshear and write
the result.  A result of .error c models a process exit with status c
and no output file written; an uncaught Python exception exits with
status 1. -/
def deface (anat_img mask_img : Volume) (buff : ℚ) : Except ℤ Volume :=
  if (anat_img.arr.n1, anat_img.arr.n2, anat_img.arr.n3) ≠
     (mask_img.arr.n1, mask_img.arr.n2, mask_img.arr.n3) then .error (-1)
  else
    match quickshear anat_img mask_img buff with
    | .error _ => .error 1
    | .ok v => .ok v

/-- Outcome of the __main__ block. -/
inductive MainResult where
  | usageExit
  | valueErrorExit
  | runs (buffers : List ℚ)
deriving DecidableEq

/-- Value of a decimal digit character, none for non-digits. -/
def pyDigit? (c : Char) : Option ℕ :=
  if '0' ≤ c ∧ c ≤ '9' then some (c.toNat - '0'.toNat) else none

/-- Accumulate a decimal numeral; none on any non-digit character. -/
def pyNatAux : List Char → ℕ → Option ℕ
  | [], acc => some acc
  | c :: t, acc =>
    match pyDigit? c with
    | none => none
    | some d => pyNatAux t (acc * 10 + d)

/-- Modelled from the spec: Python's builtin int() on a decimal string,
an external collaborator of the __main__ block; an optional sign
followed by at least one digit parses, anything else raises
ValueError (here: none). -/
def pyInt? (s : String) : Option ℤ :=
  match s.data with
  | [] => none
  | '-' :: t => if t.isEmpty then none else (pyNatAux t 0).map (fun n => -(n : ℤ))
  | '+' :: t => if t.isEmpty then none else (pyNatAux t 0).map (fun n => (n : ℤ))
  | l => (pyNatAux l 0).map (fun n => (n : ℤ))

/-- The __main__ block (lines 163-186), modelled as the sequence of
deface invocations it performs, identified by the buffer value each one
uses; Python's int() on the buffer argument is modelled by pyInt?.
Note the call at line 186 sits outside the len(sys.argv) >= 5 branch,
so a valid explicit buffer leads to two invocations, the second with
the default buffer 10. -/
def mainModel (argv : List String) : MainResult :=
  if argv.length < 4 then .usageExit
  else if 5 ≤ argv.length then
    match pyInt? (argv.getD 4 "") with
    | none => .valueErrorExit
    | some b => .runs [(b : ℚ), 10]
  else .runs [10]

/-- Adjacent pairs (edges) of a polyline. -/
def adjPairs : List Point → List (Point × Point)
  | a :: b :: t => (a, b) :: adjPairs (b :: t)
  | _ => []

/-- Every three consecutive points make a strict counter-clockwise turn:
the chain is strictly convex and no three consecutive points are
collinear. -/
def Convex3 : List Point → Prop
  | a :: b :: c :: t => 0 < cross a b c ∧ Convex3 (b :: c :: t)
  | _ => True

/-- Invariant of the monotone chain sweep, relating the processed point
list P to the working hull rl (kept reversed, most recent point
first). -/
def InvP (P rl : List Point) : Prop :=
  rl.reverse.Sublist P ∧
  rl.head? = P.getLast? ∧
  rl.getLast? = P.head? ∧
  Convex3 rl.reverse ∧
  (∀ q ∈ P, ∀ e ∈ adjPairs rl.reverse, 0 ≤ cross e.1 e.2 q)

/-- The comparison (a : float) < x for a voxel index a, NaN comparing
false; used only to state the claimed rasterization. -/
def ltNatX (a : ℕ) : XRat → Bool
  | .fin q => decide ((a : ℚ) < q)
  | .inf => true
  | _ => false

/-- Modelled from the claim: the keep-mask that zeroes voxel (s, a, i)
exactly when the line value at inferior-superior position i is positive
and the anterior-posterior index a lies in [0, y). -/
def claimKeep (slope yint : XRat) : ℕ → ℕ → ℕ → Bool :=
  fun _ a i => !((ysAt slope yint i).gt0 && ltNatX a (ysAt slope yint i))

/-- Modelled from the claim: intercept = hull[1].second -
hull[0].first * slope - buffer. -/
def specIntercept (p0 p1 : Point) (buff : ℚ) : XRat :=
  XRat.sub (XRat.sub (.fin ((p1.2 : ℤ) : ℚ))
    (XRat.mul (.fin ((p0.1 : ℤ) : ℚ)) (slopeOf p0 p1))) (.fin buff)

/-- Number of zeroed voxels of the keep-mask built for the given line
parameters over a grid of the given shape. -/
def zeroedCount (slope yint : XRat) (n1 n2 n3 : ℕ) : ℕ :=
  ((List.range n1).map (fun s =>
    ((List.range n2).map (fun a =>
      ((List.range n3).filter (fun i =>
        !(buildKeep (zipAssign slope yint n3) n3 s a i))).length)).sum)).sum

/-- Whether a quickshear run completed without raising. -/
def isOkB (e : Except PyErr Volume) : Bool :=
  match e with
  | .ok _ => true
  | .error _ => false

/-- The volume produced by a successful quickshear run (default value
for a failed one). -/
def okOr (e : Except PyErr Volume) (dflt : Volume) : Volume :=
  match e with
  | .ok v => v
  | .error _ => dflt

/-- A mask whose silhouette edge is a single row [1,1,0,0]: its hull is
two points with a zero first-coordinate run (a vertical leading
segment). -/
def c4Mask : Volume :=
  ⟨⟨1, 1, 4, fun _ _ k => if k < 2 then 1 else 0⟩, 0, 0, 'R', 'P', 'S'⟩

/-- An arbitrary concrete anatomical volume of the same shape. -/
def c4Anat : Volume :=
  ⟨⟨1, 1, 4, fun _ _ k => (k : ℤ) + 1⟩, 7, 8, 'R', 'P', 'S'⟩

/-- A (64,64,64) anatomical volume. -/
def c6Anat : Volume :=
  ⟨⟨64, 64, 64, fun _ _ _ => 1⟩, 3, 4, 'R', 'P', 'S'⟩

/-- A (64,64,32) mask volume: shape mismatch with c6Anat. -/
def c6Mask : Volume :=
  ⟨⟨64, 64, 32, fun _ _ _ => 1⟩, 5, 6, 'R', 'P', 'S'⟩

/-- Degenerate-hull mask reused to witness a successful quickshear
run. -/
def c7Mask : Volume :=
  ⟨⟨1, 1, 4, fun _ _ k => if k < 2 then 1 else 0⟩, 0, 0, 'R', 'P', 'S'⟩

/-- Concrete anatomical input for the output-preservation witness. -/
def c7Anat : Volume :=
  ⟨⟨1, 1, 4, fun _ _ k => (k : ℤ) + 1⟩, 7, 8, 'R', 'P', 'S'⟩

/-- A mask with voxels at (0,1,4) and (0,2,2): its silhouette edge is
two plus shapes whose hull leading segment has slope -2, so the slab
set zeroed by the loop is not the transpose-symmetric far side of the
cut line. -/
def c7cMask : Volume :=
  ⟨⟨1, 5, 6, fun _ j k => if (j = 1 ∧ k = 4) ∨ (j = 2 ∧ k = 2) then 1 else 0⟩,
   0, 0, 'R', 'P', 'S'⟩

/-- All-ones anatomical input matching c7cMask's grid: every voxel's
original intensity is nonzero, so any output zero is a change. -/
def c7cAnat : Volume :=
  ⟨⟨1, 5, 6, fun _ _ _ => 1⟩, 7, 8, 'R', 'P', 'S'⟩

/-- A mask with a single voxel at (0,1,1): its silhouette edge is a plus
shape whose hull leading segment has slope -1. -/
def c9Mask : Volume :=
  ⟨⟨1, 4, 4, fun _ j k => if j = 1 ∧ k = 1 then 1 else 0⟩, 0, 0, 'R', 'P', 'S'⟩

/-! Lemmas about flips. -/

lemma orient_fst (img : Volume) (hemi : Char) :
    (orient_xPS img hemi).1 = flip_axes img.arr (orient_xPS img hemi).2 := rfl

lemma flip_axes_n1 (d : Arr3) (fl : Bool × Bool × Bool) : (flip_axes d fl).n1 = d.n1 := by
  rcases fl with ⟨f1, f2, f3⟩
  cases f1 <;> cases f2 <;> cases f3 <;> rfl

lemma flip_axes_n2 (d : Arr3) (fl : Bool × Bool × Bool) : (flip_axes d fl).n2 = d.n2 := by
  rcases fl with ⟨f1, f2, f3⟩
  cases f1 <;> cases f2 <;> cases f3 <;> rfl

lemma flip_axes_n3 (d : Arr3) (fl : Bool × Bool × Bool) : (flip_axes d fl).n3 = d.n3 := by
  rcases fl with ⟨f1, f2, f3⟩
  cases f1 <;> cases f2 <;> cases f3 <;> rfl

lemma flip_axes_data (d : Arr3) (fl : Bool × Bool × Bool) (i j k : ℕ) :
    (flip_axes d fl).data i j k =
      d.data (flipIdx fl.1 d.n1 i) (flipIdx fl.2.1 d.n2 j) (flipIdx fl.2.2 d.n3 k) := by
  rcases fl with ⟨f1, f2, f3⟩
  cases f1 <;> cases f2 <;> cases f3 <;> rfl

lemma flipIdx_lt (f : Bool) (n i : ℕ) (h : i < n) : flipIdx f n i < n := by
  cases f
  all_goals simp [flipIdx]
  all_goals omega

lemma flipIdx_invol (f : Bool) (n i : ℕ) (h : i < n) : flipIdx f n (flipIdx f n i) = i := by
  cases f
  all_goals simp [flipIdx]
  all_goals omega

/-- C8: for every 3-element boolean flip vector and every 3D array,
applying the flip operation with that vector twice returns the original
array unchanged: the shape is preserved and every in-shape entry is
restored (flips are self-inverse). -/
theorem c8_flip_involution (d : Arr3) (fl : Bool × Bool × Bool) (i j k : ℕ)
    (hi : i < d.n1) (hj : j < d.n2) (hk : k < d.n3) :
    (flip_axes (flip_axes d fl) fl).n1 = d.n1 ∧
    (flip_axes (flip_axes d fl) fl).n2 = d.n2 ∧
    (flip_axes (flip_axes d fl) fl).n3 = d.n3 ∧
    (flip_axes (flip_axes d fl) fl).data i j k = d.data i j k := by
  refine ⟨by rw [flip_axes_n1, flip_axes_n1], by rw [flip_axes_n2, flip_axes_n2],
    by rw [flip_axes_n3, flip_axes_n3], ?_⟩
  rw [flip_axes_data, flip_axes_data, flip_axes_n1, flip_axes_n2, flip_axes_n3,
    flipIdx_invol _ _ _ hi, flipIdx_invol _ _ _ hj, flipIdx_invol _ _ _ hk]

/-- Witness for C8 at a concrete array, flip vector and index. -/
theorem c8_flip_involution_witness :
    (1 < 2 ∧ 2 < 3 ∧ 0 < 2) ∧
    ((flip_axes (flip_axes ⟨2, 3, 2, fun i j k => (i : ℤ) - 2 * (j : ℤ) + 5 * (k : ℤ)⟩
        (true, false, true)) (true, false, true)).n1 = 2 ∧
     (flip_axes (flip_axes ⟨2, 3, 2, fun i j k => (i : ℤ) - 2 * (j : ℤ) + 5 * (k : ℤ)⟩
        (true, false, true)) (true, false, true)).n2 = 3 ∧
     (flip_axes (flip_axes ⟨2, 3, 2, fun i j k => (i : ℤ) - 2 * (j : ℤ) + 5 * (k : ℤ)⟩
        (true, false, true)) (true, false, true)).n3 = 2 ∧
     (flip_axes (flip_axes ⟨2, 3, 2, fun i j k => (i : ℤ) - 2 * (j : ℤ) + 5 * (k : ℤ)⟩
        (true, false, true)) (true, false, true)).data 1 2 0 =
       (1 : ℤ) - 2 * 2 + 5 * 0) :=
  ⟨by decide,
   c8_flip_involution ⟨2, 3, 2, fun i j k => (i : ℤ) - 2 * (j : ℤ) + 5 * (k : ℤ)⟩
     (true, false, true) 1 2 0 (by decide) (by decide) (by decide)⟩

/-- C10: the edge map uses toroidal neighbour lookup and preserves the
silhouette's shape, and on a fully-true or fully-false silhouette every
in-shape edge pixel is false (4*self - up - down - left - right
vanishes on a uniform region). -/
theorem c10_edge_uniform (b : Arr2B)
    (hu : (∀ i, i < b.m1 → ∀ j, j < b.m2 → b.d i j = true) ∨
          (∀ i, i < b.m1 → ∀ j, j < b.m2 → b.d i j = false))
    (i j : ℕ) (hi : i < b.m1) (hj : j < b.m2) :
    (edgeOf b).m1 = b.m1 ∧ (edgeOf b).m2 = b.m2 ∧ (edgeOf b).d i j = false := by
  refine ⟨rfl, rfl, ?_⟩
  have h1 : (i + b.m1 - 1) % b.m1 < b.m1 := Nat.mod_lt _ (by omega)
  have h2 : (i + 1) % b.m1 < b.m1 := Nat.mod_lt _ (by omega)
  have h3 : (j + b.m2 - 1) % b.m2 < b.m2 := Nat.mod_lt _ (by omega)
  have h4 : (j + 1) % b.m2 < b.m2 := Nat.mod_lt _ (by omega)
  rcases hu with hu | hu <;>
  · show decide _ = false
    rw [decide_eq_false_iff_not, not_not,
      hu i hi j hj, hu _ h1 j hj, hu _ h2 j hj, hu i hi _ h3, hu i hi _ h4]
    norm_num [bInd]

/-- Witness for C10 at a concrete uniform silhouette and pixel. -/
theorem c10_edge_uniform_witness :
    ((∀ i, i < 2 → ∀ j, j < 2 → (⟨2, 2, fun _ _ => true⟩ : Arr2B).d i j = true) ∨
     (∀ i, i < 2 → ∀ j, j < 2 → (⟨2, 2, fun _ _ => true⟩ : Arr2B).d i j = false)) ∧
    1 < 2 ∧ 0 < 2 ∧
    ((edgeOf ⟨2, 2, fun _ _ => true⟩).m1 = 2 ∧ (edgeOf ⟨2, 2, fun _ _ => true⟩).m2 = 2 ∧
     (edgeOf ⟨2, 2, fun _ _ => true⟩).d 1 0 = false) :=
  ⟨Or.inl (by decide), by decide, by decide,
   c10_edge_uniform ⟨2, 2, fun _ _ => true⟩ (Or.inl (by decide)) 1 0 (by decide) (by decide)⟩

/-- C5: when the command line supplies 5 or more arguments and the
buffer argument parses as an integer, the __main__ block runs the whole
deface pipeline twice, first with the supplied buffer and then with the
default buffer 10, so the output file as finally written reflects the
default buffer. -/
theorem c5_cli_double_run (argv : List String) (b : ℤ)
    (h5 : 5 ≤ argv.length) (hb : pyInt? (argv.getD 4 "") = some b) :
    mainModel argv = .runs [(b : ℚ), 10] ∧
    ([(b : ℚ), 10] : List ℚ).getLast? = some 10 := by
  constructor
  · simp only [mainModel]
    rw [if_neg (by omega), if_pos h5, hb]
  · rfl

/-- Witness for C5 at a concrete argument vector. -/
theorem c5_cli_double_run_witness :
    5 ≤ (["quickshear.py", "anat.nii", "mask.nii", "out.nii", "7"] : List String).length ∧
    pyInt? (["quickshear.py", "anat.nii", "mask.nii", "out.nii", "7"].getD 4 "") = some 7 ∧
    (mainModel ["quickshear.py", "anat.nii", "mask.nii", "out.nii", "7"] =
       .runs [((7 : ℤ) : ℚ), 10] ∧
     ([((7 : ℤ) : ℚ), 10] : List ℚ).getLast? = some 10) :=
  ⟨by decide, by decide,
   c5_cli_double_run ["quickshear.py", "anat.nii", "mask.nii", "out.nii", "7"] 7
     (by decide) (by decide)⟩

/-- C6: whenever the anatomical and mask voxel-grid shapes differ,
deface exits with status -1 (nonzero) before any geometric computation
and writes no output file (the .error result of the model). -/
theorem c6_shape_mismatch (anat_img mask_img : Volume) (buff : ℚ)
    (h : (anat_img.arr.n1, anat_img.arr.n2, anat_img.arr.n3) ≠
         (mask_img.arr.n1, mask_img.arr.n2, mask_img.arr.n3)) :
    deface anat_img mask_img buff = .error (-1) ∧ (-1 : ℤ) ≠ 0 := by
  refine ⟨?_, by decide⟩
  simp only [deface]
  rw [if_pos h]

/-- Witness for C6 at the spec's (64,64,64) versus (64,64,32) pair. -/
theorem c6_shape_mismatch_witness :
    (c6Anat.arr.n1, c6Anat.arr.n2, c6Anat.arr.n3) ≠
      (c6Mask.arr.n1, c6Mask.arr.n2, c6Mask.arr.n3) ∧
    (deface c6Anat c6Mask 10 = .error (-1) ∧ (-1 : ℤ) ≠ 0) :=
  ⟨by decide, c6_shape_mismatch c6Anat c6Mask 10 (by decide)⟩

/-! Lemmas about the defaced output volume. -/

lemma defacedVol_n1 (d : Arr3) (fl : Bool × Bool × Bool) (keep : ℕ → ℕ → ℕ → Bool) :
    (defacedVol d fl keep).n1 = d.n1 := by
  rw [defacedVol, flip_axes_n1]

lemma defacedVol_n2 (d : Arr3) (fl : Bool × Bool × Bool) (keep : ℕ → ℕ → ℕ → Bool) :
    (defacedVol d fl keep).n2 = d.n2 := by
  rw [defacedVol, flip_axes_n2]

lemma defacedVol_n3 (d : Arr3) (fl : Bool × Bool × Bool) (keep : ℕ → ℕ → ℕ → Bool) :
    (defacedVol d fl keep).n3 = d.n3 := by
  rw [defacedVol, flip_axes_n3]

lemma defacedVol_data (d : Arr3) (fl : Bool × Bool × Bool) (keep : ℕ → ℕ → ℕ → Bool)
    (i j k : ℕ) :
    (defacedVol d fl keep).data i j k =
      if keep (flipIdx fl.1 d.n1 i) (flipIdx fl.2.1 d.n2 j) (flipIdx fl.2.2 d.n3 k) then
        d.data (flipIdx fl.1 d.n1 i) (flipIdx fl.2.1 d.n2 j) (flipIdx fl.2.2 d.n3 k)
      else 0 := by
  rw [defacedVol, flip_axes_data]

/-- Core of C7: whatever the keep-mask is, each in-shape voxel of the
defaced array built from the reoriented anatomical data is either the
original voxel of the input array or zero. -/
lemma defacedVol_cases (d : Arr3) (fl : Bool × Bool × Bool) (keep : ℕ → ℕ → ℕ → Bool)
    (i j k : ℕ) (hi : i < d.n1) (hj : j < d.n2) (hk : k < d.n3) :
    (defacedVol (flip_axes d fl) fl keep).data i j k = d.data i j k ∨
    (defacedVol (flip_axes d fl) fl keep).data i j k = 0 := by
  rw [defacedVol_data, flip_axes_n1, flip_axes_n2, flip_axes_n3]
  split_ifs with hkeep
  · left
    rw [flip_axes_data, flipIdx_invol _ _ _ hi, flipIdx_invol _ _ _ hj,
      flipIdx_invol _ _ _ hk]
  · right; rfl

/-- C7 amended: for every input pair on which quickshear succeeds, the
output volume keeps the anatomical input's affine, header and
voxel-grid shape, and every in-shape voxel is either the anatomical
value or zero.  The original claim's localization of the changed
voxels to the far side of the shear plane is false (the zeroed set is
the zip-misaligned slab set of C1): see the counterexample below. -/
theorem c7_output_preservation (anat_img mask_img : Volume) (buff : ℚ)
    (h : isOkB (quickshear anat_img mask_img buff) = true) :
    (okOr (quickshear anat_img mask_img buff) anat_img).affine = anat_img.affine ∧
    (okOr (quickshear anat_img mask_img buff) anat_img).header = anat_img.header ∧
    (okOr (quickshear anat_img mask_img buff) anat_img).arr.n1 = anat_img.arr.n1 ∧
    (okOr (quickshear anat_img mask_img buff) anat_img).arr.n2 = anat_img.arr.n2 ∧
    (okOr (quickshear anat_img mask_img buff) anat_img).arr.n3 = anat_img.arr.n3 ∧
    ∀ i j k, i < anat_img.arr.n1 → j < anat_img.arr.n2 → k < anat_img.arr.n3 →
      ((okOr (quickshear anat_img mask_img buff) anat_img).arr.data i j k =
         anat_img.arr.data i j k ∨
       (okOr (quickshear anat_img mask_img buff) anat_img).arr.data i j k = 0) := by
  rcases hh : hullOf mask_img with - | ⟨p0, - | ⟨p1, rest⟩⟩
  · simp [quickshear, hh, isOkB] at h
  · simp [quickshear, hh, isOkB] at h
  · by_cases hc : ∀ x ∈ posIdx (slopeOf p0 p1) (yintOf p0 p1 buff)
        (orient_xPS mask_img 'R').1.n3, x < (orient_xPS mask_img 'R').1.n2
    · simp only [quickshear, hh, if_pos hc, okOr]
      refine ⟨by trivial, by trivial, ?_, ?_, ?_, ?_⟩
      · rw [defacedVol_n1, orient_fst, flip_axes_n1]
      · rw [defacedVol_n2, orient_fst, flip_axes_n2]
      · rw [defacedVol_n3, orient_fst, flip_axes_n3]
      · intro i j k hi hj hk
        rw [orient_fst]
        exact defacedVol_cases anat_img.arr _ _ i j k hi hj hk
    · simp [quickshear, hh, if_neg hc, isOkB] at h

/-- Witness for C7 at a concrete input pair on which quickshear
succeeds. -/
theorem c7_output_preservation_witness :
    isOkB (quickshear c7Anat c7Mask 10) = true ∧
    ((okOr (quickshear c7Anat c7Mask 10) c7Anat).affine = c7Anat.affine ∧
     (okOr (quickshear c7Anat c7Mask 10) c7Anat).header = c7Anat.header ∧
     (okOr (quickshear c7Anat c7Mask 10) c7Anat).arr.n1 = c7Anat.arr.n1 ∧
     (okOr (quickshear c7Anat c7Mask 10) c7Anat).arr.n2 = c7Anat.arr.n2 ∧
     (okOr (quickshear c7Anat c7Mask 10) c7Anat).arr.n3 = c7Anat.arr.n3 ∧
     ∀ i j k, i < c7Anat.arr.n1 → j < c7Anat.arr.n2 → k < c7Anat.arr.n3 →
       ((okOr (quickshear c7Anat c7Mask 10) c7Anat).arr.data i j k =
          c7Anat.arr.data i j k ∨
        (okOr (quickshear c7Anat c7Mask 10) c7Anat).arr.data i j k = 0)) :=
  ⟨by decide, c7_output_preservation c7Anat c7Mask 10 (by decide)⟩

/-- Counterexample to C7 as stated: on the valid pair c7cAnat/c7cMask
(same grids, RPS orientation) with buffer 2, the hull leading segment
gives slope -2 and intercept 2, so the line values are
ys = [2, 0, -2, -4, -6, -8] and the loop zeroes defaced_mask[:, 0, :2].
The output voxel (0,0,1) changes from intensity 1 to 0, yet it is not
on the far side of the shear plane: at its inferior-superior position
the line value ys_1 = 0 is not positive, so the claimed far-side
predicate keeps it (claimKeep ... = true).  Only intensity values on
the far side change is therefore false. -/
theorem c7_counterexample :
    (c7cAnat.arr.n1, c7cAnat.arr.n2, c7cAnat.arr.n3)
      = (c7cMask.arr.n1, c7cMask.arr.n2, c7cMask.arr.n3) ∧
    hullOf c7cMask = [(0, 4), (1, 2), (2, 1), (3, 2)] ∧
    c7cAnat.arr.data 0 0 1 = 1 ∧
    (okOr (quickshear c7cAnat c7cMask 2) c7cAnat).arr.data 0 0 1 = 0 ∧
    claimKeep (slopeOf (0, 4) (1, 2)) (yintOf (0, 4) (1, 2) 2) 0 0 1 = true := by
  have hs : slopeOf (0, 4) (1, 2) = .fin (-2) := by
    norm_num [slopeOf, XRat.div]
  have hy : yintOf (0, 4) (1, 2) 2 = .fin 2 := by
    norm_num [yintOf, hs, XRat.mul, XRat.sub, XRat.add, XRat.neg]
  have hp : posIdx (XRat.fin (-2)) (XRat.fin 2) 6 = [0] := by
    norm_num [posIdx, ysAt, XRat.mul, XRat.add, XRat.gt0, List.range_succ,
      List.filter_append]
  have hz : zipAssign (XRat.fin (-2)) (XRat.fin 2) 6 = [(0, 2)] := by
    norm_num [zipAssign, posIdx, truncYs, ysAt, XRat.mul, XRat.add, XRat.gt0,
      XRat.toInt, ratTrunc, List.range_succ, List.filter_append, List.map_append]
  have hhull : hullOf c7cMask = [(0, 4), (1, 2), (2, 1), (3, 2)] := by decide
  refine ⟨by decide, hhull, by decide, ?_, ?_⟩
  · have hn3 : (orient_xPS c7cMask 'R').1.n3 = 6 := by decide
    have hn2 : (orient_xPS c7cMask 'R').1.n2 = 5 := by decide
    simp only [quickshear, hhull]
    rw [hs, hy, hn3, hn2, hp, hz]
    rw [if_pos (show ∀ x ∈ [0], x < 5 by decide)]
    decide
  · rw [hs, hy]
    norm_num [claimKeep, ysAt, XRat.mul, XRat.add, XRat.gt0, ltNatX]

/-! Lemmas about the rasterization loop. -/

lemma maskUpd_eq_false (n3 : ℕ) (m : ℕ → ℕ → ℕ → Bool) (z : ℕ × ℤ) (s a i : ℕ) :
    maskUpd n3 m z s a i = false ↔
      (z.1 = a ∧ i < sliceStop z.2 n3) ∨ m s a i = false := by
  unfold maskUpd
  split_ifs with hcond
  · exact ⟨fun _ => Or.inl ⟨hcond.1.symm, hcond.2⟩, fun _ => rfl⟩
  · constructor
    · exact fun hm => Or.inr hm
    · rintro (hz | hm)
      · exact absurd ⟨hz.1.symm, hz.2⟩ hcond
      · exact hm

lemma foldl_maskUpd_eq_false (n3 : ℕ) (zs : List (ℕ × ℤ)) (m : ℕ → ℕ → ℕ → Bool)
    (s a i : ℕ) :
    (zs.foldl (maskUpd n3) m) s a i = false ↔
      m s a i = false ∨ ∃ q ∈ zs, q.1 = a ∧ i < sliceStop q.2 n3 := by
  induction zs generalizing m with
  | nil => simp
  | cons z t ih =>
      rw [List.foldl_cons, ih, maskUpd_eq_false]
      constructor
      · rintro ((hz | hm) | ⟨q, hq, hqa, hqi⟩)
        · exact Or.inr ⟨z, List.mem_cons_self z t, hz.1, hz.2⟩
        · exact Or.inl hm
        · exact Or.inr ⟨q, List.mem_cons_of_mem z hq, hqa, hqi⟩
      · rintro (hm | ⟨q, hq, hqa, hqi⟩)
        · exact Or.inl (Or.inr hm)
        · rcases List.mem_cons.mp hq with rfl | hq
          · exact Or.inl (Or.inl ⟨hqa, hqi⟩)
          · exact Or.inr ⟨q, hq, hqa, hqi⟩

/-- C1 (amended): the keep-mask zeroes voxel (s, a, i) exactly when a is
the j-th position with positive line value for some j, and i falls in
the Python slice [0 : t] of the inferior-superior axis, where t is the
truncation of the j-th overall line value (not the line value at a):
zip pairs the list of positive positions with the whole truncated ys
array. -/
theorem c1_raster_characterization (slope yint : XRat) (n3 s a i : ℕ) :
    buildKeep (zipAssign slope yint n3) n3 s a i = false ↔
      ∃ (j : ℕ) (y : ℤ), (posIdx slope yint n3)[j]? = some a ∧
        (truncYs slope yint n3)[j]? = some y ∧ i < sliceStop y n3 := by
  rw [buildKeep, foldl_maskUpd_eq_false]
  simp only [Bool.true_eq_false, false_or]
  constructor
  · rintro ⟨q, hq, hqa, hqi⟩
    rw [zipAssign, List.mem_iff_getElem?] at hq
    obtain ⟨j, hj⟩ := hq
    rw [List.getElem?_zip_eq_some] at hj
    refine ⟨j, q.2, ?_, hj.2, hqi⟩
    rw [← hqa]
    exact hj.1
  · rintro ⟨j, y, hp, ht, hy⟩
    refine ⟨(a, y), ?_, rfl, hy⟩
    rw [zipAssign, List.mem_iff_getElem?]
    exact ⟨j, List.getElem?_zip_eq_some.mpr ⟨hp, ht⟩⟩

/-- Counterexample to C1 as stated: with slope 1 and intercept -2 on a
4-wide inferior-superior axis, the only positive position is 3, but the
loop pairs it with the truncation of ys[0] = -2, zeroing the Python
slice [: -2]; the code zeroes voxel (0,3,0) while the claimed
rasterization leaves it unchanged because ys at position 0 is not
positive. -/
theorem c1_counterexample :
    buildKeep (zipAssign (.fin 1) (.fin (-2)) 4) 4 0 3 0 = false ∧
    claimKeep (.fin 1) (.fin (-2)) 0 3 0 = true := by
  have hz : zipAssign (.fin 1) (.fin (-2)) 4 = [(3, -2)] := by
    norm_num [zipAssign, posIdx, truncYs, ysAt, XRat.mul, XRat.add, XRat.gt0,
      XRat.toInt, ratTrunc, List.range_succ, List.filter_append, List.map_append]
  refine ⟨by rw [hz]; decide, ?_⟩
  have hy : ysAt (.fin 1) (.fin (-2)) 0 = .fin (-2) := by
    norm_num [ysAt, XRat.mul, XRat.add]
  norm_num [claimKeep, hy, XRat.gt0]

/-- Counterexample to C2 as stated: for the hull starting (0,0), (1,5)
with buffer 10, the code computes intercept -10 (using hull point 0's
second coordinate) while the claimed formula hull[1].second -
hull[0].first * slope - buffer gives -5. -/
theorem c2_counterexample :
    yintOf (0, 0) (1, 5) 10 ≠ specIntercept (0, 0) (1, 5) 10 := by
  have h1 : yintOf (0, 0) (1, 5) 10 = .fin (-10) := by
    norm_num [yintOf, slopeOf, specIntercept, XRat.div, XRat.mul, XRat.sub,
      XRat.add, XRat.neg]
  have h2 : specIntercept (0, 0) (1, 5) 10 = .fin (-5) := by
    norm_num [yintOf, slopeOf, specIntercept, XRat.div, XRat.mul, XRat.sub,
      XRat.add, XRat.neg]
  rw [h1, h2]
  intro hx
  norm_num at hx

/-- C2 (amended): for every hull whose leading segment has nonzero run
and every buffer, the intercept is hull[0].second - hull[0].first *
slope - buffer, equivalently hull[1].second - hull[1].first * slope -
buffer, the line through the leading segment lowered by the buffer; the
claimed formula mixes point 1's second coordinate with point 0's
first. -/
theorem c2_intercept_corrected (p0 p1 : Point) (bf : ℚ) (h : p0.1 ≠ p1.1) :
    yintOf p0 p1 bf =
      .fin ((p0.2 : ℚ) -
        (p0.1 : ℚ) * (((p1.2 : ℚ) - (p0.2 : ℚ)) / ((p1.1 : ℚ) - (p0.1 : ℚ))) - bf) ∧
    yintOf p0 p1 bf =
      .fin ((p1.2 : ℚ) -
        (p1.1 : ℚ) * (((p1.2 : ℚ) - (p0.2 : ℚ)) / ((p1.1 : ℚ) - (p0.1 : ℚ))) - bf) := by
  have hd : ((p1.1 : ℚ) - (p0.1 : ℚ)) ≠ 0 := by
    intro hq
    exact h (by exact_mod_cast (sub_eq_zero.mp hq).symm)
  have hs : slopeOf p0 p1 =
      .fin (((p1.2 : ℚ) - (p0.2 : ℚ)) / ((p1.1 : ℚ) - (p0.1 : ℚ))) := by
    rw [slopeOf, XRat.div]
    rw [if_pos (by push_cast; exact hd)]
    push_cast
    ring_nf
  constructor
  · rw [yintOf, hs]
    simp only [XRat.mul, XRat.sub, XRat.add, XRat.neg, XRat.fin.injEq]
    ring
  · rw [yintOf, hs]
    simp only [XRat.mul, XRat.sub, XRat.add, XRat.neg, XRat.fin.injEq]
    field_simp
    ring


/-- Witness for C2's amended theorem at the hull (0,0), (1,5) with
buffer 10. -/
theorem c2_intercept_corrected_witness :
    ((0, 0) : Point).1 ≠ ((1, 5) : Point).1 ∧
    (yintOf (0, 0) (1, 5) 10 =
       .fin ((((0, 0) : Point).2 : ℚ) -
         (((0, 0) : Point).1 : ℚ) *
           (((((1, 5) : Point).2 : ℚ) - (((0, 0) : Point).2 : ℚ)) /
             ((((1, 5) : Point).1 : ℚ) - (((0, 0) : Point).1 : ℚ))) - 10) ∧
     yintOf (0, 0) (1, 5) 10 =
       .fin ((((1, 5) : Point).2 : ℚ) -
         (((1, 5) : Point).1 : ℚ) *
           (((((1, 5) : Point).2 : ℚ) - (((0, 0) : Point).2 : ℚ)) /
             ((((1, 5) : Point).1 : ℚ) - (((0, 0) : Point).1 : ℚ))) - 10)) :=
  ⟨by decide, c2_intercept_corrected (0, 0) (1, 5) 10 (by decide)⟩

/-- Counterexample to C4 as stated: a mask whose silhouette edge lies in
a single row yields a two-point hull with zero run, yet quickshear
completes without reporting any error (the slope division silently
yields non-finite values and no voxel is zeroed). -/
theorem c4_counterexample :
    hullOf c4Mask = [(0, 0), (0, 3)] ∧
    isOkB (quickshear c4Anat c4Mask 10) = true := by
  exact ⟨by decide, by decide⟩

/-- C4 (amended): quickshear raises an unhandled exception (the
unpacking ValueError of line 126 or the IndexError of line 127, both
fatal with nonzero exit and distinct from the shape-mismatch warning)
exactly when the hull has fewer than 2 points; a zero-run leading
segment with 2 or more hull points is not detected and the run
completes without an error report. -/
theorem c4_no_degenerate_guard (anat_img mask_img : Volume) (buff : ℚ) :
    (quickshear anat_img mask_img buff = .error .valueError ∨
     quickshear anat_img mask_img buff = .error .hullIndexError) ↔
    (hullOf mask_img).length < 2 := by
  rcases hh : hullOf mask_img with - | ⟨p0, - | ⟨p1, rest⟩⟩
  · simp [quickshear, hh]
  · simp [quickshear, hh]
  · simp only [quickshear, hh]
    split_ifs with hc <;> simp [List.length_cons]

/-! Lemmas for buffer monotonicity. -/

lemma gt0_shift (t c : XRat) (b1 b2 : ℚ) (hb : b1 ≤ b2)
    (h : (XRat.add t (XRat.sub c (.fin b2))).gt0 = true) :
    (XRat.add t (XRat.sub c (.fin b1))).gt0 = true := by
  rcases t with u | - | - | - <;> rcases c with v | - | - | -
  all_goals simp_all [XRat.add, XRat.sub, XRat.neg, XRat.gt0]
  all_goals linarith

/-- C9 (amended): holding the volumes fixed, increasing the buffer never
enlarges the set of positions at which a zeroing assignment is applied:
every position with positive line value under the larger buffer also
has positive line value under the smaller one.  (The zeroed-voxel count
itself is not monotone in either direction; see the counterexample.) -/
theorem c9_buffer_posIdx_antitone (mask_img : Volume) (p0 p1 : Point) (rest : List Point)
    (_hh : hullOf mask_img = p0 :: p1 :: rest) (n : ℕ) (b1 b2 : ℚ) (hb : b1 ≤ b2) :
    ∀ k ∈ posIdx (slopeOf p0 p1) (yintOf p0 p1 b2) n,
      k ∈ posIdx (slopeOf p0 p1) (yintOf p0 p1 b1) n := by
  intro k hk
  rw [posIdx, List.mem_filter] at hk ⊢
  refine ⟨hk.1, ?_⟩
  have h2 := hk.2
  simp only [ysAt, yintOf] at h2 ⊢
  exact gt0_shift _ _ _ _ hb h2

/-- Witness for C9's amended theorem at the single-voxel mask. -/
theorem c9_buffer_posIdx_antitone_witness :
    hullOf c9Mask = [(0, 1), (1, 0), (2, 1)] ∧ (0 : ℚ) ≤ 1 ∧
    (∀ k ∈ posIdx (slopeOf (0, 1) (1, 0)) (yintOf (0, 1) (1, 0) 1) 4,
       k ∈ posIdx (slopeOf (0, 1) (1, 0)) (yintOf (0, 1) (1, 0) 0) 4) :=
  ⟨by decide, by norm_num,
   c9_buffer_posIdx_antitone c9Mask (0, 1) (1, 0) [(2, 1)] (by decide) 4 0 1 (by norm_num)⟩

/-- Counterexample to C9 as stated: for the single-voxel mask (hull
leading slope -1), raising the buffer from 0 to 1 moves the zeroed
voxel count from 1 down to 0, so increasing the buffer does decrease
the number of zeroed voxels. -/
theorem c9_counterexample :
    hullOf c9Mask = [(0, 1), (1, 0), (2, 1)] ∧ (0 : ℚ) ≤ 1 ∧
    zeroedCount (slopeOf (0, 1) (1, 0)) (yintOf (0, 1) (1, 0) 0) 1 4 4 = 1 ∧
    zeroedCount (slopeOf (0, 1) (1, 0)) (yintOf (0, 1) (1, 0) 1) 1 4 4 = 0 := by
  have hs : slopeOf (0, 1) (1, 0) = .fin (-1) := by
    norm_num [slopeOf, XRat.div]
  have hy0 : yintOf (0, 1) (1, 0) 0 = .fin 1 := by
    norm_num [yintOf, hs, XRat.mul, XRat.sub, XRat.add, XRat.neg]
  have hy1 : yintOf (0, 1) (1, 0) 1 = .fin 0 := by
    norm_num [yintOf, hs, XRat.mul, XRat.sub, XRat.add, XRat.neg]
  have hz0 : zipAssign (.fin (-1)) (.fin 1) 4 = [(0, 1)] := by
    norm_num [zipAssign, posIdx, truncYs, ysAt, XRat.mul, XRat.add, XRat.gt0,
      XRat.toInt, ratTrunc, List.range_succ, List.filter_append, List.map_append]
  have hz1 : zipAssign (.fin (-1)) (.fin 0) 4 = [] := by
    norm_num [zipAssign, posIdx, truncYs, ysAt, XRat.mul, XRat.add, XRat.gt0,
      XRat.toInt, ratTrunc, List.range_succ, List.filter_append, List.map_append]
  refine ⟨by decide, by norm_num, ?_, ?_⟩
  · rw [hs, hy0]
    simp only [zeroedCount, hz0]
    decide
  · rw [hs, hy1]
    simp only [zeroedCount, hz1]
    decide


/-! Geometry of the monotone chain: cross product and lexicographic
order lemmas. -/

lemma cross_self_right (o a : Point) : cross o a o = 0 := by
  unfold cross; ring

lemma lexLt_asymm {a b : Point} (h : lexLt a b) : ¬ lexLt b a := by
  unfold lexLt at h ⊢; omega

lemma lex_cases (a b : Point) : lexLt a b ∨ a = b ∨ lexLt b a := by
  rcases a with ⟨a1, a2⟩
  rcases b with ⟨b1, b2⟩
  simp only [lexLt, Prod.mk.injEq]
  omega

lemma lexLe_antisymm {a b : Point} (h1 : lexLe a b) (h2 : lexLe b a) : a = b := by
  rcases h1 with h1 | rfl
  · rcases h2 with h2 | rfl
    · exact absurd h2 (lexLt_asymm h1)
    · rfl
  · rfl

lemma lexLt_x {a b : Point} (h : lexLt a b) : a.1 ≤ b.1 := by
  unfold lexLt at h; omega

lemma lexLe_x {a b : Point} (h : lexLe a b) : a.1 ≤ b.1 := by
  rcases h with h | rfl
  · exact lexLt_x h
  · exact le_refl _

lemma lexLt_y_eq {a b : Point} (h : lexLt a b) (hx : a.1 = b.1) : a.2 < b.2 := by
  unfold lexLt at h; omega

lemma lexLe_y_eq {a b : Point} (h : lexLe a b) (hx : a.1 = b.1) : a.2 ≤ b.2 := by
  rcases h with h' | rfl
  · exact le_of_lt (lexLt_y_eq h' hx)
  · exact le_refl _

/-- Rotating the chain's final edge down about its left endpoint: if q
and p both lie weakly right of h, q is on or above the line of edge
(h, b), and p is on or below it, then q is on or above the line of the
new edge (h, p). -/
lemma cross_pop_step (h b p q : Point) (hhb : lexLt h b) (hhq : lexLe h q)
    (hhp : lexLe h p) (hq : 0 ≤ cross h b q) (hp : cross h b p ≤ 0) :
    0 ≤ cross h p q := by
  have key : (b.1 - h.1) * cross h p q =
      (p.1 - h.1) * cross h b q - (q.1 - h.1) * cross h b p := by
    unfold cross; ring
  have hv1 : 0 ≤ p.1 - h.1 := by have := lexLe_x hhp; omega
  have hw1 : 0 ≤ q.1 - h.1 := by have := lexLe_x hhq; omega
  have hu1 : 0 ≤ b.1 - h.1 := by have := lexLt_x hhb; omega
  have hA : 0 ≤ (p.1 - h.1) * cross h b q := mul_nonneg hv1 hq
  have hB : (q.1 - h.1) * cross h b p ≤ 0 := by
    have := mul_le_mul_of_nonneg_left hp hw1
    simpa using this
  rcases eq_or_lt_of_le hu1 with hu0 | hupos
  · have hbx : b.1 = h.1 := by omega
    have hby : h.2 < b.2 := lexLt_y_eq hhb hbx.symm
    have hqle : q.1 ≤ h.1 := by
      unfold cross at hq
      rw [hbx] at hq
      nlinarith
    have hq1 : q.1 = h.1 := by omega
    have hqy : 0 ≤ q.2 - h.2 := by have := lexLe_y_eq hhq hq1.symm; omega
    unfold cross
    rw [hq1]
    nlinarith [mul_nonneg hv1 hqy]
  · nlinarith [key, hA, hB]

/-- Rotating the chain's final edge up about its right endpoint: if q is
weakly left of h, p weakly right, q on or above the line of edge
(h2, h), and p strictly above it, then q is on or above the line of the
new edge (h, p). -/
lemma cross_keep_step (h2 h p q : Point) (hlt : lexLt h2 h) (hhp : lexLe h p)
    (hqh : lexLe q h) (hq : 0 ≤ cross h2 h q) (hp : 0 < cross h2 h p) :
    0 ≤ cross h p q := by
  have key : (h.1 - h2.1) * cross h p q =
      (p.1 - h.1) * cross h2 h q - (q.1 - h.1) * cross h2 h p := by
    unfold cross; ring
  have hv1 : 0 ≤ p.1 - h.1 := by have := lexLe_x hhp; omega
  have hw1 : q.1 - h.1 ≤ 0 := by have := lexLe_x hqh; omega
  have hu1 : 0 ≤ h.1 - h2.1 := by have := lexLt_x hlt; omega
  have hA : 0 ≤ (p.1 - h.1) * cross h2 h q := mul_nonneg hv1 hq
  have hB : (q.1 - h.1) * cross h2 h p ≤ 0 := by
    have := mul_le_mul_of_nonneg_right hw1 (le_of_lt hp)
    simpa using this
  rcases eq_or_lt_of_le hu1 with hu0 | hupos
  · exfalso
    have hhx : h.1 = h2.1 := by omega
    have hhy : h2.2 < h.2 := lexLt_y_eq hlt hhx.symm
    unfold cross at hp
    rw [hhx] at hp hv1
    nlinarith
  · nlinarith [key, hA, hB]

/-- Walking one edge back along a convex chain: if the chain turns
strictly left at h2 -> h and p is strictly above the line of the last
edge (h2, h) and weakly right of h, then p is also strictly above the
line of the previous edge (h3, h2). -/
lemma cross_chain_step (h3 h2 h p : Point) (h32 : lexLt h3 h2) (h2h : lexLt h2 h)
    (hhp : lexLe h p) (hturn : 0 < cross h3 h2 h) (hlast : 0 < cross h2 h p) :
    0 < cross h3 h2 p := by
  have key : (h.1 - h2.1) * cross h3 h2 p =
      (p.1 - h2.1) * cross h3 h2 h - (h3.1 - h2.1) * cross h2 h p := by
    unfold cross; ring
  have ht1 : h3.1 - h2.1 ≤ 0 := by have := lexLt_x h32; omega
  have hu1 : 0 ≤ h.1 - h2.1 := by have := lexLt_x h2h; omega
  have hvu : h.1 - h2.1 ≤ p.1 - h2.1 := by have := lexLe_x hhp; omega
  have hB : 0 ≤ -((h3.1 - h2.1) * cross h2 h p) := by nlinarith
  rcases eq_or_lt_of_le hu1 with hu0 | hupos
  · exfalso
    have hhx : h.1 = h2.1 := by omega
    have hhy : h2.2 < h.2 := lexLt_y_eq h2h hhx.symm
    unfold cross at hlast
    rw [hhx] at hlast hvu
    nlinarith
  · nlinarith [key, hB, mul_le_mul_of_nonneg_right hvu (le_of_lt hturn),
      mul_pos hupos hturn]

/-! Structure lemmas about popWhile, adjPairs and Convex3. -/

lemma popWhile_suffix (p : Point) : ∀ rl : List Point, popWhile p rl <:+ rl
  | [] => List.suffix_refl _
  | [a] => List.suffix_refl _
  | b :: a :: rest => by
      simp only [popWhile]
      split_ifs with hc
      · exact (popWhile_suffix p (a :: rest)).trans (List.suffix_cons b _)
      · exact List.suffix_refl _

lemma popWhile_ne_nil (p : Point) : ∀ rl : List Point, rl ≠ [] → popWhile p rl ≠ []
  | [], h => absurd rfl h
  | [a], _ => by simp [popWhile]
  | b :: a :: rest, _ => by
      simp only [popWhile]
      split_ifs with hc
      · exact popWhile_ne_nil p (a :: rest) (by simp)
      · simp

lemma popWhile_stop (p : Point) :
    ∀ (rl : List Point) (b a : Point) (t : List Point),
      popWhile p rl = b :: a :: t → 0 < cross a b p
  | [], b, a, t => by simp [popWhile]
  | [x], b, a, t => by simp [popWhile]
  | x :: y :: rest, b, a, t => by
      simp only [popWhile]
      split_ifs with hc
      · exact popWhile_stop p (y :: rest) b a t
      · intro heq
        injection heq with h1 h2
        injection h2 with h3 h4
        subst h1
        subst h3
        exact not_le.mp hc

lemma popWhile_cases (p : Point) : ∀ rl : List Point,
    popWhile p rl = rl ∨
    ∃ b a t, popWhile p rl = a :: t ∧ (b :: a :: t) <:+ rl ∧ cross a b p ≤ 0
  | [] => Or.inl rfl
  | [a] => Or.inl rfl
  | x :: y :: rest => by
      simp only [popWhile]
      split_ifs with hc
      · rcases popWhile_cases p (y :: rest) with heq | ⟨b, a, t, h1, h2, h3⟩
        · exact Or.inr ⟨x, y, rest, heq, List.suffix_refl _, hc⟩
        · exact Or.inr ⟨b, a, t, h1, h2.trans (List.suffix_cons x _), h3⟩
      · exact Or.inl rfl

lemma getLast?_of_suffix {l' l : List Point} (h : l' <:+ l) (hne : l' ≠ []) :
    l'.getLast? = l.getLast? := by
  obtain ⟨pre, rfl⟩ := h
  rw [List.getLast?_append]
  cases hl : l'.getLast? with
  | none => exact absurd (List.getLast?_eq_none_iff.mp hl) hne
  | some a => rfl

lemma adjPairs_subset_append (m : List Point) :
    ∀ l, ∀ e ∈ adjPairs l, e ∈ adjPairs (l ++ m)
  | [], e, he => by simp [adjPairs] at he
  | [a], e, he => by simp [adjPairs] at he
  | a :: b :: t, e, he => by
      simp only [adjPairs, List.cons_append]
      rcases List.mem_cons.mp he with rfl | he'
      · exact List.mem_cons_self _ _
      · exact List.mem_cons_of_mem _ (adjPairs_subset_append m (b :: t) e he')

lemma mem_adjPairs_append_pair (a b : Point) : ∀ l, (a, b) ∈ adjPairs (l ++ [a, b])
  | [] => by simp [adjPairs]
  | [x] => by simp [adjPairs]
  | x :: y :: t => by
      simp only [List.cons_append, adjPairs]
      exact List.mem_cons_of_mem _ (mem_adjPairs_append_pair a b (y :: t))

lemma adjPairs_snoc_mem (p : Point) :
    ∀ (l : List Point) (e : Point × Point), e ∈ adjPairs (l ++ [p]) →
      e ∈ adjPairs l ∨ ∃ h, l.getLast? = some h ∧ e = (h, p)
  | [], e, he => by simp [adjPairs] at he
  | [a], e, he => by
      simp only [List.cons_append, List.nil_append, adjPairs] at he
      rcases List.mem_cons.mp he with rfl | he'
      · exact Or.inr ⟨a, rfl, rfl⟩
      · simp [adjPairs] at he'
  | a :: b :: t, e, he => by
      simp only [List.cons_append, adjPairs] at he
      rcases List.mem_cons.mp he with rfl | he'
      · exact Or.inl (List.mem_cons_self _ _)
      · rcases adjPairs_snoc_mem p (b :: t) e he' with h | ⟨x, hx, hex⟩
        · exact Or.inl (List.mem_cons_of_mem _ h)
        · exact Or.inr ⟨x, by rw [List.getLast?_cons_cons]; exact hx, hex⟩

lemma adj_of_pairwise {R : Point → Point → Prop} :
    ∀ l : List Point, l.Pairwise R → ∀ e ∈ adjPairs l, R e.1 e.2
  | [], _, e, he => by simp [adjPairs] at he
  | [a], _, e, he => by simp [adjPairs] at he
  | a :: b :: t, hp, e, he => by
      rcases List.mem_cons.mp he with rfl | he'
      · exact (List.pairwise_cons.mp hp).1 b (List.mem_cons_self _ _)
      · exact adj_of_pairwise (b :: t) (List.pairwise_cons.mp hp).2 e he'

lemma convex3_tail {x : Point} {l : List Point} (h : Convex3 (x :: l)) : Convex3 l := by
  match l with
  | [] => trivial
  | [a] => trivial
  | a :: b :: t => exact h.2

lemma convex3_append_left : ∀ l m : List Point, Convex3 (l ++ m) → Convex3 l
  | [], _, _ => trivial
  | [a], _, _ => trivial
  | [a, b], _, _ => trivial
  | a :: b :: c :: t, m, h => by
      refine ⟨h.1, convex3_append_left (b :: c :: t) m h.2⟩

lemma convex3_last_triple :
    ∀ (l : List Point) (a b c : Point), Convex3 (l ++ [a, b, c]) → 0 < cross a b c
  | [], _, _, _, h => h.1
  | _ :: l, a, b, c, h => convex3_last_triple l a b c (convex3_tail h)

lemma convex3_snoc : ∀ (l : List Point) (p : Point), Convex3 l →
    (∀ l0 a b, l = l0 ++ [a, b] → 0 < cross a b p) → Convex3 (l ++ [p])
  | [], p, _, _ => trivial
  | [a], p, _, _ => trivial
  | [a, b], p, _, hl => ⟨hl [] a b rfl, trivial⟩
  | a :: b :: c :: t, p, hc, hl => by
      refine ⟨hc.1, ?_⟩
      exact convex3_snoc (b :: c :: t) p hc.2
        (fun l0 x y hxy => hl (a :: l0) x y (by rw [hxy, List.cons_append]))

lemma concat_inj {l0 l1 : List Point} {a b : Point} (h : l0 ++ [a] = l1 ++ [b]) :
    a = b := by
  have h2 := congrArg List.getLast? h
  rwa [List.getLast?_concat, List.getLast?_concat, Option.some.injEq] at h2

lemma concat_inj_left {l0 l1 : List Point} {a b : Point} (h : l0 ++ [a] = l1 ++ [b]) :
    l0 = l1 := by
  have h2 := congrArg List.dropLast h
  rwa [List.dropLast_concat, List.dropLast_concat] at h2

lemma append_two_inj {l0 l1 : List Point} {a b c d : Point}
    (h : l0 ++ [a, b] = l1 ++ [c, d]) : a = c ∧ b = d := by
  have h' : (l0 ++ [a]) ++ [b] = (l1 ++ [c]) ++ [d] := by
    simpa [List.append_assoc] using h
  exact ⟨concat_inj (concat_inj_left h'), concat_inj h'⟩

lemma pairwise_getLast_ge :
    ∀ (P : List Point), P.Pairwise lexLt → ∀ h, P.getLast? = some h →
      ∀ q ∈ P, lexLe q h
  | [], _, h, hlast, q, hq => by simp at hq
  | [x], _, h, hlast, q, hq => by
      simp only [List.getLast?_singleton, Option.some.injEq] at hlast
      rcases List.mem_singleton.mp hq with rfl
      exact Or.inr hlast
  | x :: y :: t, hp, h, hlast, q, hq => by
      rw [List.getLast?_cons_cons] at hlast
      rcases List.mem_cons.mp hq with rfl | hq'
      · have hh : h ∈ y :: t := List.mem_of_getLast?_eq_some hlast
        exact Or.inl ((List.pairwise_cons.mp hp).1 h hh)
      · exact pairwise_getLast_ge (y :: t) (List.pairwise_cons.mp hp).2 h hlast q hq'

lemma pairwise_head_le (P : List Point) (hp : P.Pairwise lexLt) (h : Point)
    (hhead : P.head? = some h) : ∀ q ∈ P, lexLe h q := by
  cases P with
  | nil => simp at hhead
  | cons x t =>
      simp only [List.head?_cons, Option.some.injEq] at hhead
      subst hhead
      intro q hq
      rcases List.mem_cons.mp hq with rfl | hq'
      · exact Or.inr rfl
      · exact Or.inl ((List.pairwise_cons.mp hp).1 q hq')


/-! The sweep invariant and the lower hull theorem. -/

lemma cross_snd_self (o a : Point) : cross o a a = 0 := by
  unfold cross; ring

/-- Every edge of a sorted strictly convex chain sees p strictly above
its line, provided the last edge does and p lies weakly right of the
chain. -/
lemma chain_edges_above :
    ∀ (n : ℕ) (C : List Point) (p : Point), C.length ≤ n →
      C.Pairwise lexLt → Convex3 C →
      (∀ l0 x y, C = l0 ++ [x, y] → 0 < cross x y p) →
      (∀ x ∈ C, lexLe x p) →
      ∀ e ∈ adjPairs C, 0 < cross e.1 e.2 p
  | 0, C, p, hlen, _, _, _, _, e, he => by
      have hC : C = [] := List.length_eq_zero.mp (Nat.le_zero.mp hlen)
      subst hC
      simp [adjPairs] at he
  | n + 1, C, p, hlen, hsort, hconv, hlast, hple, e, he => by
      rcases hrev : C.reverse with - | ⟨y, t1⟩
      · have hC : C = [] := by simpa using congrArg List.reverse hrev
        subst hC
        simp [adjPairs] at he
      · rcases t1 with - | ⟨x, t2⟩
        · have hC : C = [y] := by simpa using congrArg List.reverse hrev
          subst hC
          simp [adjPairs] at he
        · have hC : C = (t2.reverse ++ [x]) ++ [y] := by
            have h0 := congrArg List.reverse hrev
            rw [List.reverse_reverse] at h0
            rw [h0]
            simp
          have he' : e ∈ adjPairs ((t2.reverse ++ [x]) ++ [y]) := by
            rw [← hC]
            exact he
          rcases adjPairs_snoc_mem y _ e he' with hin | ⟨z, hz, rfl⟩
          · have hsubC : List.Sublist (t2.reverse ++ [x]) C := by
              rw [hC]
              exact List.sublist_append_left _ _
            refine chain_edges_above n (t2.reverse ++ [x]) p ?_ ?_ ?_ ?_ ?_ e hin
            · have hlC : C.length = t2.length + 2 := by rw [hC]; simp
              have hl2 : (t2.reverse ++ [x]).length = t2.length + 1 := by simp
              omega
            · exact List.Pairwise.sublist hsubC hsort
            · exact convex3_append_left _ [y] (by rw [← hC]; exact hconv)
            · intro l1 u v huv
              have hCassoc : C = t2.reverse ++ [x, y] := by
                rw [hC]
                simp
              have hCb : C = (l1 ++ [u, v]) ++ [y] := by
                rw [hC, huv]
              have hCc : C = l1 ++ [u, v, y] := by
                rw [hCb]
                simp
              have hCd : C = (l1 ++ [u]) ++ [v, y] := by
                rw [hCc]
                simp
              have hxv : x = v := by
                have h9 : t2.reverse ++ [x] = (l1 ++ [u]) ++ [v] := by
                  rw [huv]
                  simp
                exact concat_inj h9
              have hturn : 0 < cross u v y :=
                convex3_last_triple l1 u v y (by rw [← hCc]; exact hconv)
              have hlasty : 0 < cross v y p := by
                rw [← hxv]
                exact hlast t2.reverse x y (by rw [hCassoc])
              have hadj_uv : (u, v) ∈ adjPairs C := by
                rw [hCb]
                exact adjPairs_subset_append [y] _ _ (mem_adjPairs_append_pair u v l1)
              have hadj_vy : (v, y) ∈ adjPairs C := by
                rw [hCd]
                exact mem_adjPairs_append_pair v y (l1 ++ [u])
              have h_uv : lexLt u v := adj_of_pairwise C hsort _ hadj_uv
              have h_vy : lexLt v y := adj_of_pairwise C hsort _ hadj_vy
              have h_yp : lexLe y p := hple y (by rw [hC]; simp)
              exact cross_chain_step u v y p h_uv h_vy h_yp hturn hlasty
            · intro z hz
              exact hple z (by rw [hC]; exact List.mem_append_left _ hz)
          · have hzx : z = x := by
              rw [List.getLast?_concat] at hz
              exact (Option.some.inj hz).symm
            rw [hzx]
            have hCassoc : C = t2.reverse ++ [x, y] := by
              rw [hC]
              simp
            exact hlast t2.reverse x y (by rw [hCassoc])

/-- One sweep step preserves the invariant. -/
lemma inv_step (P rl : List Point) (p : Point)
    (hP : P.Pairwise lexLt) (hp : ∀ q ∈ P, lexLt q p) (hinv : InvP P rl) :
    InvP (P ++ [p]) (sweepStep rl p) := by
  obtain ⟨hsub, hhead, hlast, hconv, habove⟩ := hinv
  rw [sweepStep]
  rcases hrl0 : popWhile p rl with - | ⟨h, t⟩
  · have hrlnil : rl = [] := by
      by_contra hne
      exact popWhile_ne_nil p rl hne hrl0
    have hPnil : P = [] := by
      rw [hrlnil] at hhead
      cases hPc : P with
      | nil => rfl
      | cons a t' =>
          exfalso
          rw [hPc] at hhead
          have h2 : (a :: t').getLast? = none := hhead.symm
          rw [List.getLast?_eq_none_iff] at h2
          exact List.cons_ne_nil a t' h2
    subst hPnil
    refine ⟨by simp, by simp, by simp, trivial, ?_⟩
    intro q hq e he
    simp [adjPairs] at he
  · have hrlne : rl ≠ [] := by
      intro hnil
      rw [hnil] at hrl0
      simp [popWhile] at hrl0
    have hsuf : (h :: t) <:+ rl := hrl0 ▸ popWhile_suffix p rl
    obtain ⟨dr, hdr⟩ := hsuf
    have hm : rl.reverse = (h :: t).reverse ++ dr.reverse := by
      rw [← hdr, List.reverse_append]
    have hsubC : List.Sublist ((h :: t).reverse) rl.reverse := by
      rw [hm]
      exact List.sublist_append_left _ _
    have hsub' : (h :: t).reverse.Sublist P := hsubC.trans hsub
    have hCsorted : rl.reverse.Pairwise lexLt := List.Pairwise.sublist hsub hP
    have hC'sorted : (h :: t).reverse.Pairwise lexLt := List.Pairwise.sublist hsub' hP
    have hconv' : Convex3 (h :: t).reverse :=
      convex3_append_left _ _ (by rw [← hm]; exact hconv)
    have hmemP : ∀ x ∈ h :: t, x ∈ P := by
      intro x hx
      refine hsub'.subset ?_
      rw [List.mem_reverse]
      exact hx
    have habove' : ∀ q ∈ P, ∀ e ∈ adjPairs (h :: t).reverse, 0 ≤ cross e.1 e.2 q := by
      intro q hq e he
      exact habove q hq e (by rw [hm]; exact adjPairs_subset_append _ _ e he)
    have hstop : ∀ l0 x y, (h :: t).reverse = l0 ++ [x, y] → 0 < cross x y p := by
      intro l0 x y hxy
      apply popWhile_stop p rl y x l0.reverse
      rw [hrl0]
      rw [← List.reverse_reverse (h :: t), hxy]
      simp
    have hple' : ∀ x ∈ (h :: t).reverse, lexLe x p := by
      intro x hx
      exact Or.inl (hp x (hsub'.subset hx))
    have hhp : lexLe h p := Or.inl (hp h (hmemP h (List.mem_cons_self _ _)))
    have hlast' : (h :: t).getLast? = P.head? := by
      rw [getLast?_of_suffix (hrl0 ▸ popWhile_suffix p rl) (by simp)]
      exact hlast
    have hPne : P ≠ [] := by
      intro hP0
      rw [hP0] at hhead
      simp only [List.getLast?_nil] at hhead
      exact hrlne (List.head?_eq_none_iff.mp hhead)
    have hnew : ∀ q ∈ P, 0 ≤ cross h p q := by
      intro q hq
      rcases popWhile_cases p rl with hid | ⟨b, a2, t2, h1, h2, h3⟩
      · have hrleq : rl = h :: t := by rw [← hid, hrl0]
        have hhP : P.getLast? = some h := by
          rw [← hhead, hrleq]
          rfl
        have hqh : lexLe q h := pairwise_getLast_ge P hP h hhP q hq
        cases t with
        | nil =>
            have hhH : P.head? = some h := by
              rw [← hlast, hrleq]
              rfl
            have hle : lexLe h q := pairwise_head_le P hP h hhH q hq
            have hqeq : q = h := lexLe_antisymm hqh hle
            subst hqeq
            exact (cross_self_right q p).ge
        | cons h2 t2 =>
            have hst : 0 < cross h2 h p :=
              popWhile_stop p rl h h2 t2 (by rw [hid, hrleq])
            have hadj : (h2, h) ∈ adjPairs rl.reverse := by
              rw [hrleq]
              have hrw : (h :: h2 :: t2).reverse = t2.reverse ++ [h2, h] := by simp
              rw [hrw]
              exact mem_adjPairs_append_pair h2 h t2.reverse
            have hq2 : 0 ≤ cross h2 h q := habove q hq _ hadj
            have hlt : lexLt h2 h := adj_of_pairwise _ hCsorted _ hadj
            exact cross_keep_step h2 h p q hlt hhp hqh hq2 hst
      · rw [hrl0] at h1
        injection h1 with ha2 ht2
        subst ha2
        subst ht2
        obtain ⟨pre, hpre⟩ := h2
        have hrev2 : rl.reverse = (t.reverse ++ [h, b]) ++ pre.reverse := by
          rw [← hpre]
          simp [List.reverse_append, List.append_assoc]
        have hadjhb : (h, b) ∈ adjPairs rl.reverse := by
          rw [hrev2]
          exact adjPairs_subset_append _ _ _ (mem_adjPairs_append_pair h b t.reverse)
        have hltb : lexLt h b := adj_of_pairwise _ hCsorted _ hadjhb
        have hqb : 0 ≤ cross h b q := habove q hq _ hadjhb
        rcases lex_cases q h with hqh | heq | hhq
        · cases t with
          | nil =>
              have hhH : P.head? = some h := by
                rw [← hlast']
                rfl
              have hle : lexLe h q := pairwise_head_le P hP h hhH q hq
              rcases hle with hlt' | hqeq
              · exact absurd hqh (lexLt_asymm hlt')
              · rw [hqeq] at hqh
                exact absurd hqh (lexLt_asymm hqh)
          | cons h2 t2 =>
              have hst : 0 < cross h2 h p := popWhile_stop p rl h h2 t2 hrl0
              have hadj2 : (h2, h) ∈ adjPairs (h :: h2 :: t2).reverse := by
                have hrw : (h :: h2 :: t2).reverse = t2.reverse ++ [h2, h] := by simp
                rw [hrw]
                exact mem_adjPairs_append_pair h2 h t2.reverse
              have hq2 : 0 ≤ cross h2 h q := habove' q hq _ hadj2
              have hlt2 : lexLt h2 h := adj_of_pairwise _ hC'sorted _ hadj2
              exact cross_keep_step h2 h p q hlt2 hhp (Or.inl hqh) hq2 hst
        · subst heq
          exact (cross_self_right q p).ge
        · exact cross_pop_step h b p q hltb (Or.inl hhq) hhp hqb h3
    have hpedges : ∀ e ∈ adjPairs (h :: t).reverse, 0 < cross e.1 e.2 p := by
      intro e he
      exact chain_edges_above ((h :: t).reverse.length) _ p (le_refl _)
        hC'sorted hconv' hstop hple' e he
    refine ⟨?_, ?_, ?_, ?_, ?_⟩
    · have hrw : (p :: h :: t).reverse = (h :: t).reverse ++ [p] := by simp
      rw [hrw]
      exact List.Sublist.append hsub' (List.Sublist.refl [p])
    · simp [List.getLast?_concat]
    · rw [List.getLast?_cons_cons, hlast']
      cases hPc : P with
      | nil => exact absurd hPc hPne
      | cons a t' => simp
    · have hrw : (p :: h :: t).reverse = (h :: t).reverse ++ [p] := by simp
      rw [hrw]
      exact convex3_snoc _ p hconv' hstop
    · intro q hq e he
      have hrw : (p :: h :: t).reverse = (h :: t).reverse ++ [p] := by simp
      rw [hrw] at he
      rcases adjPairs_snoc_mem p _ e he with hin | ⟨z, hz, rfl⟩
      · rcases List.mem_append.mp hq with hqP | hqp
        · exact habove' q hqP e hin
        · rcases List.mem_singleton.mp hqp with rfl
          exact le_of_lt (hpedges e hin)
      · have hzh : z = h := by
          rw [List.getLast?_reverse] at hz
          simp only [List.head?_cons] at hz
          exact (Option.some.inj hz).symm
        subst hzh
        rcases List.mem_append.mp hq with hqP | hqp
        · exact hnew q hqP
        · rcases List.mem_singleton.mp hqp with rfl
          exact (cross_snd_self z q).ge

/-- The invariant holds after sweeping any sorted point list. -/
lemma inv_fold (pts : List Point) :
    pts.Pairwise lexLt → InvP pts (pts.foldl sweepStep []) := by
  induction pts using List.reverseRecOn with
  | nil =>
      intro _
      refine ⟨by simp, rfl, rfl, trivial, ?_⟩
      intro q hq
      simp at hq
  | append_singleton l a ih =>
      intro hs
      rw [List.foldl_append, List.foldl_cons, List.foldl_nil]
      have hparts := List.pairwise_append.mp hs
      exact inv_step l (l.foldl sweepStep []) a hparts.1
        (fun q hq => hparts.2.2 q hq a (by simp)) (ih hparts.1)

/-- The row-major extraction of true pixels is lexicographically
strictly ascending: the builder itself establishes the order. -/
lemma extractPts_pairwise (b : Arr2B) : (extractPts b).Pairwise lexLt := by
  rw [extractPts, List.pairwise_flatten]
  constructor
  · intro l hl
    rw [List.mem_map] at hl
    obtain ⟨i, hi, rfl⟩ := hl
    refine List.Pairwise.map _ ?_ (List.Pairwise.filter _ (List.pairwise_lt_range b.m2))
    intro j1 j2 hj
    exact Or.inr ⟨rfl, Int.ofNat_lt.mpr hj⟩
  · rw [List.pairwise_map]
    refine List.Pairwise.imp ?_ (List.pairwise_lt_range b.m1)
    intro i1 i2 hi x hx y hy
    rw [List.mem_map] at hx hy
    obtain ⟨j1, hj1, rfl⟩ := hx
    obtain ⟨j2, hj2, rfl⟩ := hy
    exact Or.inl (Int.ofNat_lt.mpr hi)

/-- C3: the hull builder linearizes the 2D pixel set in lexicographic
ascending (row-major np.nonzero) order itself, and the monotone chain
sweep popping on cross <= 0 returns the lower hull: a left-to-right
sorted subsequence of the input points whose consecutive triples all
turn strictly counter-clockwise (so exactly-collinear points are
excluded), which starts at the first input point, ends at the last, and
keeps every input point on or above the line of every hull edge. -/
theorem c3_lower_hull (b : Arr2B) :
    (extractPts b).Pairwise lexLt ∧
    (convex_hull b).Sublist (extractPts b) ∧
    (convex_hull b).Pairwise lexLt ∧
    Convex3 (convex_hull b) ∧
    (∀ q ∈ extractPts b, ∀ e ∈ adjPairs (convex_hull b), 0 ≤ cross e.1 e.2 q) ∧
    (convex_hull b).head? = (extractPts b).head? ∧
    (convex_hull b).getLast? = (extractPts b).getLast? := by
  have hs := extractPts_pairwise b
  obtain ⟨h1, h2, h3, h4, h5⟩ := inv_fold (extractPts b) hs
  refine ⟨hs, h1, List.Pairwise.sublist h1 hs, h4, h5, ?_, ?_⟩
  · show (chainOf (extractPts b)).head? = _
    rw [chainOf, List.head?_reverse]
    exact h3
  · show (chainOf (extractPts b)).getLast? = _
    rw [chainOf, List.getLast?_reverse]
    exact h2

end Quickshear
